import Mathlib

/-!
Shallow embedding of `src/peertube-plugin-auth-openid-connect/main.js`
(PeerTube OpenID Connect auth plugin) and proofs about it.

The JavaScript source is embedded as executable Lean definitions:
JS values that flow through the callback mapping become `JsValue`,
JS numbers (which may be NaN) become `JSNumber`, the Node `crypto`
cipher pipeline (AES-256-CBC over hex-encoded `iv:ciphertext` tokens)
becomes explicit CBC/PKCS#7/hex functions over an abstract 16-byte
block cipher, and the stateful plugin orchestration becomes explicit
state passing over `Store`/`HostState`.
-/

namespace Oidc

/-- JS numbers as they occur here: either NaN or an integer
(parseInt with radix 10 only ever produces these on the inputs of
interest). -/
inductive JSNumber where
  | nan
  | int (n : Int)
deriving DecidableEq, Repr

/-- JSON-ish values occurring in the userinfo object.  An absent
property is represented by `Option.none` at the lookup site. -/
inductive JsValue where
  | str (s : String)
  | num (n : JSNumber)
  | bool (b : Bool)
  | jnull
deriving DecidableEq, Repr

/-- JS truthiness of a value (`if (v)`). -/
def jsTruthy : JsValue → Bool
  | .str s => s ≠ ""
  | .num .nan => false
  | .num (.int n) => n ≠ 0
  | .bool b => b
  | .jnull => false

/-- JS string coercion of a value, as in the source's quoted
concatenation of an empty string and the claim value. -/
def jsToString : JsValue → String
  | .str s => s
  | .num .nan => "NaN"
  | .num (.int n) => toString n
  | .bool true => "true"
  | .bool false => "false"
  | .jnull => "null"

/-- JS string coercion applied to a possibly-absent value: an absent
value coerces to the text form of the undefined value. -/
def jsCoerceString : Option JsValue → String
  | none => "undefined"
  | some v => jsToString v

/-- Truthiness of a possibly-absent setting string
(`if (settings[k])`): absent and empty are both falsy. -/
def strOptTruthy : Option String → Bool
  | none => false
  | some s => s ≠ ""

/-- JS property-key coercion: an undefined key reads the property
named by the text form of undefined. -/
def jsKeyStr : Option String → String
  | none => "undefined"
  | some s => s

/-- Lookup of a property in the userinfo object (an association
list); `none` models an absent property. -/
def uiLookup (ui : List (String × JsValue)) (k : String) : Option JsValue :=
  (ui.find? (fun p => p.1 = k)).map (fun p => p.2)

/-- Character test for the ECMAScript whitespace skipped by parseInt
(by code point). -/
def jsWhitespace (c : Char) : Bool :=
  c.toNat = 32 || c.toNat = 9 || c.toNat = 10 || c.toNat = 13 || c.toNat = 11 || c.toNat = 12

/-- Decimal digit test (by code point). -/
def isDig (c : Char) : Bool :=
  48 ≤ c.toNat && c.toNat ≤ 57

/-- Value of a run of decimal digits, radix 10, most significant
first. -/
def digitsVal (ds : List Char) : Int :=
  ds.foldl (fun a c => 10 * a + ((c.toNat : Int) - 48)) 0

/-- Digit-run step of parseInt: take the longest digit run; an empty
run yields NaN, otherwise the signed radix-10 value. -/
def parseDigits (cs : List Char) (sign : Int) : JSNumber :=
  let ds := cs.takeWhile isDig
  if ds = [] then JSNumber.nan else JSNumber.int (sign * digitsVal ds)

/-- Model of the ECMAScript parseInt builtin at radix 10: skip
whitespace, read an optional sign, then the longest digit run. -/
def jsParseInt10 (s : String) : JSNumber :=
  let cs := s.data.dropWhile jsWhitespace
  match cs with
  | [] => JSNumber.nan
  | c :: r =>
    if c = '-' then parseDigits r (-1)
    else if c = '+' then parseDigits r 1
    else parseDigits (c :: r) 1

/-- Character class of the sanitization regex in the source: the
characters it keeps (lowercase letters, digits, dot, underscore; by
code point). -/
def isUsernameChar (c : Char) : Bool :=
  (97 ≤ c.toNat && c.toNat ≤ 122) || (48 ≤ c.toNat && c.toNat ≤ 57) || c.toNat = 46 || c.toNat = 95

/-- The source's global regex replacement on the username: every
character outside the kept class becomes an underscore. -/
def sanitizeUsername (s : String) : String :=
  String.mk (s.data.map (fun c => if isUsernameChar c then c else '_'))

/-- The four settings read by the callback handler; `none` models an
unset setting. -/
structure CbSettings where
  mailProperty : Option String
  usernameProperty : Option String
  displayNameProperty : Option String
  roleProperty : Option String
deriving DecidableEq, Repr

/-- Role mapping from the callback handler: only when the role
property setting is truthy, string-coerce the claim value and
parseInt it at radix 10. -/
def roleOf (settings : CbSettings) (ui : List (String × JsValue)) : Option JSNumber :=
  if strOptTruthy settings.roleProperty then
    some (jsParseInt10 (jsCoerceString (uiLookup ui (jsKeyStr settings.roleProperty))))
  else none

/-- Display-name mapping from the callback handler. -/
def displayNameOf (settings : CbSettings) (ui : List (String × JsValue)) : Option JsValue :=
  if strOptTruthy settings.displayNameProperty then
    uiLookup ui (jsKeyStr settings.displayNameProperty)
  else none

/-- Username mapping from the callback handler: claim value or-else
the empty string, then the regex replacement; a truthy non-string
value makes the replacement call throw (caught by the handler). -/
def usernameOf (settings : CbSettings) (ui : List (String × JsValue)) : Except String String :=
  let raw := uiLookup ui (jsKeyStr settings.usernameProperty)
  let v : JsValue :=
    match raw with
    | some w => if jsTruthy w then w else JsValue.str ""
    | none => JsValue.str ""
  match v with
  | .str s => Except.ok (sanitizeUsername s)
  | _ => Except.error "username.replace is not a function"

/-- The normalized identity handed to the host on success. -/
structure IdentityCall where
  username : String
  email : Option JsValue
  displayName : Option JsValue
  role : Option JSNumber
deriving DecidableEq, Repr

/-- Attribute-mapping step of the callback handler (role, display
name, username, email), assembled exactly as the handler passes them
to the host acceptance function. -/
def mapUserInfo (settings : CbSettings) (ui : List (String × JsValue)) : Except String IdentityCall :=
  match usernameOf settings ui with
  | .error e => Except.error e
  | .ok un =>
    Except.ok
      { username := un
        email := uiLookup ui (jsKeyStr settings.mailProperty)
        displayName := displayNameOf settings ui
        role := roleOf settings ui }

/-- Lowercase hex digit for a value below 16, as produced by the
Node hex encoding. -/
def hexDigitChar (n : Nat) : Char :=
  if n < 10 then Char.ofNat (48 + n) else Char.ofNat (87 + n)

/-- Hex encoding of a byte list (Node Buffer.toString with the hex
encoding): two lowercase digits per byte, most significant first. -/
def hexEncodeChars (bs : List Nat) : List Char :=
  bs.foldr (fun b acc => hexDigitChar (b / 16) :: hexDigitChar (b % 16) :: acc) []

/-- Value of one hex digit; accepts both cases like the Node
decoder. -/
def hexVal (c : Char) : Option Nat :=
  if 48 ≤ c.toNat ∧ c.toNat ≤ 57 then some (c.toNat - 48)
  else if 97 ≤ c.toNat ∧ c.toNat ≤ 102 then some (c.toNat - 87)
  else if 65 ≤ c.toNat ∧ c.toNat ≤ 70 then some (c.toNat - 55)
  else none

/-- Hex decoding of a character list (Node Buffer.from with the hex
encoding): consume complete valid pairs, stop silently at the first
invalid or incomplete pair. -/
def hexDecodeChars : List Char → List Nat
  | c1 :: c2 :: rest =>
    match hexVal c1, hexVal c2 with
    | some a, some b => (16 * a + b) :: hexDecodeChars rest
    | _, _ => []
  | _ => []

/-- Bytewise xor of two byte lists (truncating at the shorter). -/
def xorBytes (a b : List Nat) : List Nat :=
  List.zipWith (fun x y => x ^^^ y) a b

/-- Fuel-driven splitting of a byte list into 16-byte blocks. -/
def chunks16Aux : Nat → List Nat → List (List Nat)
  | 0, _ => []
  | _ + 1, [] => []
  | fuel + 1, x :: xs => (x :: xs).take 16 :: chunks16Aux fuel ((x :: xs).drop 16)

/-- Split a byte list into 16-byte cipher blocks (the last block may
be shorter when the length is not a multiple of 16). -/
def chunks16 (l : List Nat) : List (List Nat) :=
  chunks16Aux l.length l

/-- An abstract 16-byte block cipher keyed by a byte list; the AES
core used through Node crypto is one instance.  The theorems assume
only the standard block-cipher laws at the key in use. -/
structure BlockCipher where
  enc : List Nat → List Nat → List Nat
  dec : List Nat → List Nat → List Nat

/-- CBC-mode encryption of a block list under a chaining value. -/
def cbcEnc (bc : BlockCipher) (key : List Nat) : List Nat → List (List Nat) → List (List Nat)
  | _, [] => []
  | prev, b :: bs =>
    let c := bc.enc key (xorBytes b prev)
    c :: cbcEnc bc key c bs

/-- CBC-mode decryption of a block list under a chaining value. -/
def cbcDec (bc : BlockCipher) (key : List Nat) : List Nat → List (List Nat) → List (List Nat)
  | _, [] => []
  | prev, c :: cs => xorBytes (bc.dec key c) prev :: cbcDec bc key c cs

/-- PKCS#7 padding to a 16-byte multiple, as applied by the Node
cipher before encryption. -/
def pkcs7pad (bs : List Nat) : List Nat :=
  bs ++ List.replicate (16 - bs.length % 16) (16 - bs.length % 16)

/-- PKCS#7 padding check and removal, as applied by the Node
decipher after decryption: the last byte names the pad length and
all pad bytes must equal it. -/
def pkcs7unpad (bs : List Nat) : Option (List Nat) :=
  match bs.reverse with
  | [] => none
  | n :: t =>
    if 1 ≤ n ∧ n ≤ 16 ∧ ((n :: t).take n).all (fun x => x = n) then
      some (((n :: t).drop n).reverse)
    else none

/-- UTF-8 encoding of one character. -/
def utf8EncodeChar (c : Char) : List Nat :=
  let n := c.toNat
  if n < 128 then [n]
  else if n < 2048 then [192 + n / 64, 128 + n % 64]
  else if n < 65536 then [224 + n / 4096, 128 + n / 64 % 64, 128 + n % 64]
  else [240 + n / 262144, 128 + n / 4096 % 64, 128 + n / 64 % 64, 128 + n % 64]

/-- UTF-8 encoding of a string, as the Node cipher input encoding
applies it. -/
def utf8Encode (s : String) : List Nat :=
  (s.data.map utf8EncodeChar).flatten

/-- UTF-8 continuation-byte test. -/
def isCont (b : Nat) : Bool :=
  128 ≤ b && b < 192

/-- Lenient UTF-8 decoding with fuel: invalid sequences become the
replacement character instead of failing, as in the Node output
decoding of a decipher. -/
def utf8DecodeLenientAux : Nat → List Nat → List Char
  | 0, _ => []
  | _ + 1, [] => []
  | fuel + 1, b :: rest =>
    if b < 128 then Char.ofNat b :: utf8DecodeLenientAux fuel rest
    else if 194 ≤ b && b ≤ 223 then
      match rest with
      | b2 :: rest2 =>
        if isCont b2 then
          Char.ofNat ((b - 192) * 64 + (b2 - 128)) :: utf8DecodeLenientAux fuel rest2
        else Char.ofNat 65533 :: utf8DecodeLenientAux fuel rest
      | [] => [Char.ofNat 65533]
    else if 224 ≤ b && b ≤ 239 then
      match rest with
      | b2 :: b3 :: rest3 =>
        if isCont b2 && isCont b3 then
          Char.ofNat ((b - 224) * 4096 + (b2 - 128) * 64 + (b3 - 128)) ::
            utf8DecodeLenientAux fuel rest3
        else Char.ofNat 65533 :: utf8DecodeLenientAux fuel rest
      | _ => [Char.ofNat 65533]
    else if 240 ≤ b && b ≤ 244 then
      match rest with
      | b2 :: b3 :: b4 :: rest4 =>
        if isCont b2 && isCont b3 && isCont b4 then
          Char.ofNat ((b - 240) * 262144 + (b2 - 128) * 4096 + (b3 - 128) * 64 + (b4 - 128)) ::
            utf8DecodeLenientAux fuel rest4
        else Char.ofNat 65533 :: utf8DecodeLenientAux fuel rest
      | _ => [Char.ofNat 65533]
    else Char.ofNat 65533 :: utf8DecodeLenientAux fuel rest

/-- Lenient UTF-8 decoding of a byte list. -/
def utf8DecodeLenient (bs : List Nat) : String :=
  String.mk (utf8DecodeLenientAux bs.length bs)

/-- Model of the JS string split on a separator character. -/
def splitChar (sep : Char) : List Char → List (List Char)
  | [] => [[]]
  | c :: rest =>
    match splitChar sep rest with
    | [] => [[c]]
    | h :: t => if c = sep then [] :: h :: t else (c :: h) :: t

/-- Ciphertext bytes of the source's encrypt function: UTF-8 encode,
pad, CBC-encrypt under the fresh IV, concatenate the blocks. -/
def ctBytes (bc : BlockCipher) (key iv : List Nat) (s : String) : List Nat :=
  (cbcEnc bc key iv (chunks16 (pkcs7pad (utf8Encode s)))).flatten

/-- The source's encrypt function: hex IV, a colon, hex ciphertext. -/
def encryptModel (bc : BlockCipher) (key iv : List Nat) (s : String) : String :=
  String.mk (hexEncodeChars iv ++ ':' :: hexEncodeChars (ctBytes bc key iv s))

/-- The source's decrypt function: split the token on the colon,
hex-decode both halves, CBC-decrypt, unpad; every failure (missing
segment, bad IV or key size, bad final block, bad padding) throws. -/
def decryptModel (bc : BlockCipher) (key : List Nat) (token : String) : Except String String :=
  match splitChar ':' token.data with
  | p0 :: p1 :: _ =>
    let iv := hexDecodeChars p0
    let ct := hexDecodeChars p1
    if key.length ≠ 32 then Except.error "Invalid key length"
    else if iv.length ≠ 16 then Except.error "Invalid initialization vector"
    else if ct.length = 0 ∨ ct.length % 16 ≠ 0 then Except.error "wrong final block length"
    else
      match pkcs7unpad ((cbcDec bc key iv (chunks16 ct)).flatten) with
      | some pt => Except.ok (utf8DecodeLenient pt)
      | none => Except.error "bad decrypt"
  | _ => Except.error "TypeError: second token segment is undefined"

/-- Ok-projection of an Except value. -/
def exceptToOption {ε α : Type} : Except ε α → Option α
  | .ok a => some a
  | .error _ => none

/-- Key stream of the witness cipher: the first 16 key bytes,
zero-extended. -/
def xorKeyStream (k : List Nat) : List Nat :=
  (k ++ List.replicate 16 0).take 16

/-- A concrete block cipher used to instantiate the abstract cipher
laws in witnesses: xor with the first 16 key bytes. -/
def xorBlockCipher : BlockCipher :=
  { enc := fun k b => xorBytes b (xorKeyStream k)
    dec := fun k b => xorBytes b (xorKeyStream k) }

/-- Modification of the first byte of an IV or plaintext (low bit
flipped), used to state IV-tampering results. -/
def flipFirst : List Nat → List Nat
  | [] => []
  | x :: xs => (x ^^^ 1) :: xs

/-- Character set of the code-verifier tokens (URL-safe base64, by
code point). -/
def tokenChar (c : Char) : Bool :=
  (65 ≤ c.toNat && c.toNat ≤ 90) || (97 ≤ c.toNat && c.toNat ≤ 122) ||
    (48 ≤ c.toNat && c.toNat ≤ 57) || c.toNat = 45 || c.toNat = 95

/-- Name of the transport cookie, a fixed constant in the source. -/
def cookieName : String := "plugin-auth-openid-code-verifier"

/-- Response-affecting actions a request handler can take: setting
the transport cookie or redirecting the user agent. -/
inductive ResAction where
  | setCookie (name value : String) (secure httpOnly : Bool) (sameSite : String) (maxAgeMs : Nat)
  | redirect (url : String)
deriving DecidableEq, Repr

/-- The error redirect emitted by the callback error path. -/
def onCBErrorAction : ResAction :=
  ResAction.redirect "/login?externalAuthError=true"

/-- The token set returned by the OIDC code exchange, reduced to the
field the handler reads. -/
structure TokenSet where
  access_token : String
deriving DecidableEq, Repr

/-- Cookie lookup on the request. -/
def reqCookie (cookies : List (String × String)) (name : String) : Option String :=
  (cookies.find? (fun p => p.1 = name)).map (fun p => p.2)

/-- The callback handler: check the acceptor, read and decrypt the
transport cookie, exchange the code, fetch userinfo, map attributes,
hand the identity to the host; every failure routes to the error
redirect.  The code exchange and userinfo calls are oracles supplied
by the external OIDC client library. -/
def handleCbModel (bc : BlockCipher) (key : List Nat) (ua : Option Nat)
    (cookies : List (String × String))
    (tokenExchange : String → Except Unit TokenSet)
    (userinfo : String → Except Unit (List (String × JsValue)))
    (settings : CbSettings) : List ResAction × Option IdentityCall :=
  match ua with
  | none => ([onCBErrorAction], none)
  | some _ =>
    let ecv := reqCookie cookies cookieName
    if ¬ strOptTruthy ecv then ([onCBErrorAction], none)
    else
      match decryptModel bc key (ecv.getD "") with
      | .error _ => ([onCBErrorAction], none)
      | .ok cv =>
        match tokenExchange cv with
        | .error _ => ([onCBErrorAction], none)
        | .ok ts =>
          match userinfo ts.access_token with
          | .error _ => ([onCBErrorAction], none)
          | .ok ui =>
            match mapUserInfo settings ui with
            | .error _ => ([onCBErrorAction], none)
            | .ok ident => ([], some ident)

/-- Parameters the auth-request handler passes to the authorization
URL builder. -/
structure AuthParams where
  scope : String
  response_mode : String
  code_challenge : String
  code_challenge_method : String
deriving DecidableEq, Repr

/-- The fallible steps of the auth-request handler, supplied by the
external OIDC client library and the crypto layer: verifier
generation, challenge derivation, URL construction, verifier
encryption, and the two response operations. -/
structure AuthOracles where
  codeVerifier : Except Unit String
  codeChallenge : String → Except Unit String
  authorizationUrl : AuthParams → Except Unit String
  encryptStep : String → Except Unit String
  cookieOk : Bool
  redirectOk : Bool

/-- The auth-request handler: generate the PKCE pair, build the
authorization URL with the fixed scope, response mode and challenge
method, encrypt the verifier into the transport cookie, redirect.
The whole body is wrapped in a try/catch whose handler only logs;
the second component records whether the error logger ran. -/
def onAuthRequestModel (o : AuthOracles) (webserverUrl : String) : List ResAction × Bool :=
  match o.codeVerifier with
  | .error _ => ([], true)
  | .ok cv =>
    match o.codeChallenge cv with
    | .error _ => ([], true)
    | .ok cc =>
      match o.authorizationUrl
          { scope := "openid email profile", response_mode := "form_post",
            code_challenge := cc, code_challenge_method := "S256" } with
      | .error _ => ([], true)
      | .ok url =>
        match o.encryptStep cv with
        | .error _ => ([], true)
        | .ok ecv =>
          if ¬ o.cookieOk then ([], true)
          else if ¬ o.redirectOk then
            ([ResAction.setCookie cookieName ecv (webserverUrl.startsWith "https://")
                true "none" 600000], true)
          else
            ([ResAction.setCookie cookieName ecv (webserverUrl.startsWith "https://")
                true "none" 600000,
              ResAction.redirect url], false)

/-- Whether some step of the auth-request handler fails (the
spec-side characterization of "any error during the six steps"). -/
def authRequestFails (o : AuthOracles) : Bool :=
  match o.codeVerifier with
  | .error _ => true
  | .ok cv =>
    match o.codeChallenge cv with
    | .error _ => true
    | .ok cc =>
      match o.authorizationUrl
          { scope := "openid email profile", response_mode := "form_post",
            code_challenge := cc, code_challenge_method := "S256" } with
      | .error _ => true
      | .ok _ =>
        match o.encryptStep cv with
        | .error _ => true
        | .ok _ => !o.cookieOk || !o.redirectOk

/-- Redirect test on a response action. -/
def isRedirect : ResAction → Bool
  | .redirect _ => true
  | _ => false

/-- Percent-encoding of the space character in a query value. -/
def urlEncodeChar (c : Char) : String :=
  if c = ' ' then "%20" else String.mk [c]

/-- Percent-encoding of a query value (spaces only, which is all the
fixed scope needs). -/
def urlEncode (s : String) : String :=
  String.join (s.data.map urlEncodeChar)

/-- Modelled from the spec: the authorization-URL construction done
by the external OIDC client library (not part of this repository):
the issuer's authorization endpoint followed by the serialized query
parameters the handler passes. -/
def authorizationUrlModel (endpoint : String) (p : AuthParams) : String :=
  endpoint ++ "?scope=" ++ urlEncode p.scope ++ "&response_mode=" ++ p.response_mode ++
    "&code_challenge=" ++ p.code_challenge ++ "&code_challenge_method=" ++
    p.code_challenge_method

/-- Boolean segment-containment test on character lists (needle is a
contiguous segment of the haystack), for the wire-format checks. -/
def headSeg : List Char → List Char → Bool
  | [], _ => true
  | _ :: _, [] => false
  | a :: as, b :: bs => a = b && headSeg as bs

/-- Boolean containment of a contiguous segment. -/
def containsSeg (needle : List Char) : List Char → Bool
  | [] => decide (needle = [])
  | c :: rest => headSeg needle (c :: rest) || containsSeg needle rest

/-- The resolved OIDC client options built from the settings, as the
source assembles them. -/
structure ClientOpts where
  client_id : String
  redirect_uris : List String
  response_types : List String
  client_secret : Option String
  token_endpoint_auth_method : Option String
deriving DecidableEq, Repr

/-- Client options from lines 138 through 148 of the source: secret
when configured, otherwise the public-client token endpoint auth
method. -/
def buildClientOptions (clientId : String) (clientSecret : Option String)
    (redirectUrl : String) : ClientOpts :=
  { client_id := clientId
    redirect_uris := [redirectUrl]
    response_types := ["code"]
    client_secret := if strOptTruthy clientSecret then clientSecret else none
    token_endpoint_auth_method := if strOptTruthy clientSecret then none else some "none" }

/-- The process-wide mutable store of the plugin: current client,
current identity-acceptance handle, fixed redirect URL.  Handles are
numbered so distinct registrations are distinguishable. -/
structure Store where
  client : Option ClientOpts
  userAuthenticated : Option Nat
  redirectUrl : String
deriving DecidableEq, Repr

/-- Modelled from the spec: the host's auth-method registry
(external collaborator): a set of registered auth names and a
counter producing fresh acceptance handles. -/
structure HostState where
  registered : List String
  nextHandle : Nat
deriving DecidableEq, Repr

/-- Modelled from the spec: the host's unregister capability removes
a previously registered method by its name. -/
def hostUnregister (h : HostState) (name : String) : HostState :=
  { h with registered := h.registered.filter (fun n => n ≠ name) }

/-- Modelled from the spec: the host's register capability installs
an auth method under its authName and hands back a fresh
identity-acceptance handle. -/
def hostRegister (h : HostState) (name : String) : HostState × Nat :=
  ({ registered := if name ∈ h.registered then h.registered else h.registered ++ [name]
     nextHandle := h.nextHandle + 1 }, h.nextHandle)

/-- The settings the reconfiguration reads. -/
structure ReconfSettings where
  discoverUrl : Option String
  clientId : Option String
  clientSecret : Option String
deriving DecidableEq, Repr

/-- The reconfiguration routine of the source: unregister the name
"openid" when a client exists, clear the store, return early on a
falsy discover URL or client id, discover the issuer (the oracle
flag reports success), build the client, and register the external
auth under the name "openid-connect" unless the (just cleared)
acceptance handle is still present.  The final flag reports whether
the routine ran to completion without throwing. -/
def reconfigure (st : Store) (h : HostState) (settings : ReconfSettings)
    (discoverOk : Bool) : Store × HostState × Bool :=
  let h1 := if st.client.isSome then hostUnregister h "openid" else h
  let st1 : Store := { st with client := none, userAuthenticated := none }
  if ¬ strOptTruthy settings.discoverUrl then (st1, h1, true)
  else if ¬ strOptTruthy settings.clientId then (st1, h1, true)
  else if ¬ discoverOk then (st1, h1, false)
  else
    let st2 : Store := { st1 with client := some (buildClientOptions
      (settings.clientId.getD "") settings.clientSecret st.redirectUrl) }
    if st2.userAuthenticated.isSome then (st2, h1, true)
    else
      let hr := hostRegister h1 "openid-connect"
      ({ st2 with userAuthenticated := some hr.2 }, hr.1, true)

end Oidc

namespace Oidc

/-- Characters are equal when their code points are. -/
theorem char_toNat_inj {a b : Char} (h : a.toNat = b.toNat) : a = b := by
  apply Char.ext
  exact UInt32.toNat.inj h

/-- The kept character class coincides with the spec's description:
lowercase letters, digits, dot, underscore. -/
theorem isUsernameChar_iff (c : Char) :
    isUsernameChar c = true ↔
      (('a' ≤ c ∧ c ≤ 'z') ∨ ('0' ≤ c ∧ c ≤ '9') ∨ c = '.' ∨ c = '_') := by
  unfold isUsernameChar
  simp only [Bool.or_eq_true, Bool.and_eq_true, decide_eq_true_eq]
  constructor
  · rintro (((⟨h1, h2⟩ | ⟨h1, h2⟩) | h) | h)
    · exact Or.inl ⟨h1, h2⟩
    · exact Or.inr (Or.inl ⟨h1, h2⟩)
    · exact Or.inr (Or.inr (Or.inl (@char_toNat_inj c '.' h)))
    · exact Or.inr (Or.inr (Or.inr (@char_toNat_inj c '_' h)))
  · rintro (⟨h1, h2⟩ | ⟨h1, h2⟩ | h | h)
    · exact Or.inl (Or.inl (Or.inl ⟨h1, h2⟩))
    · exact Or.inl (Or.inl (Or.inr ⟨h1, h2⟩))
    · rw [h]
      exact Or.inl (Or.inr (by decide))
    · rw [h]
      exact Or.inr (by decide)

/-- Replacement of a single character agrees with the spec-side
description of the character class. -/
theorem sanitizeChar_eq (c : Char) :
    (if isUsernameChar c then c else '_') =
      (if ('a' ≤ c ∧ c ≤ 'z') ∨ ('0' ≤ c ∧ c ≤ '9') ∨ c = '.' ∨ c = '_' then c else '_') := by
  by_cases h : isUsernameChar c = true
  · rw [if_pos h, if_pos ((isUsernameChar_iff c).mp h)]
  · rw [if_neg h, if_neg (fun hp => h ((isUsernameChar_iff c).mpr hp))]

/-- C3: the username mapped on callback is the value of the
configured username property (empty string if absent) with every
character outside lowercase letters, digits, dot and underscore
replaced by an underscore and no case folding; and the two concrete
examples of the spec. -/
theorem oidc_C3_username_mapping
    (settings : CbSettings) (ui : List (String × JsValue)) (s : String) :
    (uiLookup ui (jsKeyStr settings.usernameProperty) = some (JsValue.str s) →
      usernameOf settings ui = Except.ok (sanitizeUsername s)) ∧
    (uiLookup ui (jsKeyStr settings.usernameProperty) = none →
      usernameOf settings ui = Except.ok "") ∧
    (∀ t : String, (sanitizeUsername t).data =
      t.data.map (fun c =>
        if ('a' ≤ c ∧ c ≤ 'z') ∨ ('0' ≤ c ∧ c ≤ '9') ∨ c = '.' ∨ c = '_' then c else '_')) ∧
    sanitizeUsername "John.Doe" = "_ohn._oe" ∧
    sanitizeUsername "jane_99" = "jane_99" := by
  refine ⟨?_, ?_, ?_, by decide, by decide⟩
  · intro h
    by_cases hs : s = ""
    · subst hs
      simp [usernameOf, h, jsTruthy, sanitizeUsername]
    · simp [usernameOf, h, jsTruthy, hs]
  · intro h
    simp [usernameOf, h]
    rfl
  · intro t
    show t.data.map (fun c => if isUsernameChar c then c else '_') = _
    exact List.map_congr_left (fun c _ => sanitizeChar_eq c)

/-- Witness for C3 at concrete inputs. -/
theorem oidc_C3_username_mapping_witness :
    usernameOf ⟨some "email", some "preferred_username", none, none⟩
        [("preferred_username", JsValue.str "John.Doe")] = Except.ok "_ohn._oe" ∧
    usernameOf ⟨some "email", some "preferred_username", none, none⟩ [] = Except.ok "" := by
  constructor
  · have h := (oidc_C3_username_mapping ⟨some "email", some "preferred_username", none, none⟩
      [("preferred_username", JsValue.str "John.Doe")] "John.Doe").1 (by decide)
    rw [h]
    exact congrArg Except.ok (by decide)
  · exact (oidc_C3_username_mapping ⟨some "email", some "preferred_username", none, none⟩
      [] "").2.1 (by decide)

/-- C4: role mapping on callback; unset role property yields no role
field, claim value the string "2" yields integer 2, absent claim
yields the NaN sentinel, and the role value is passed to the host
unchanged. -/
theorem oidc_C4_role_mapping (settings : CbSettings) (ui : List (String × JsValue)) :
    (settings.roleProperty = none → roleOf settings ui = none) ∧
    (∀ p : String, settings.roleProperty = some p → p ≠ "" →
      ((uiLookup ui p = some (JsValue.str "2") → roleOf settings ui = some (JSNumber.int 2)) ∧
       (uiLookup ui p = none → roleOf settings ui = some JSNumber.nan))) ∧
    (∀ ident : IdentityCall, mapUserInfo settings ui = Except.ok ident →
      ident.role = roleOf settings ui) := by
  refine ⟨?_, ?_, ?_⟩
  · intro h
    simp [roleOf, h, strOptTruthy]
  · intro p hp hne
    constructor
    · intro h
      have h2 : jsParseInt10 "2" = JSNumber.int 2 := by decide
      simp [roleOf, hp, strOptTruthy, hne, jsKeyStr, h, jsCoerceString, jsToString, h2]
    · intro h
      have h2 : jsParseInt10 "undefined" = JSNumber.nan := by decide
      simp [roleOf, hp, strOptTruthy, hne, jsKeyStr, h, jsCoerceString, h2]
  · intro ident h
    cases hu : usernameOf settings ui with
    | error e =>
      rw [mapUserInfo, hu] at h
      exact absurd h (by simp)
    | ok un =>
      rw [mapUserInfo, hu] at h
      have := Except.ok.inj h
      rw [← this]

/-- Witness for C4 at concrete inputs. -/
theorem oidc_C4_role_mapping_witness :
    roleOf ⟨some "email", some "u", none, none⟩ [] = none ∧
    roleOf ⟨some "email", some "u", none, some "role"⟩ [("role", JsValue.str "2")] =
      some (JSNumber.int 2) ∧
    roleOf ⟨some "email", some "u", none, some "role"⟩ [] = some JSNumber.nan := by
  refine ⟨(oidc_C4_role_mapping ⟨some "email", some "u", none, none⟩ []).1 rfl, ?_, ?_⟩
  · exact ((oidc_C4_role_mapping ⟨some "email", some "u", none, some "role"⟩
      [("role", JsValue.str "2")]).2.1 "role" rfl (by decide)).1 (by decide)
  · exact ((oidc_C4_role_mapping ⟨some "email", some "u", none, some "role"⟩
      []).2.1 "role" rfl (by decide)).2 (by decide)

/-- A whitespace character is never a digit, stated in the direction
needed below. -/
theorem isDig_not_ws {c : Char} (h : isDig c = true) : jsWhitespace c = false := by
  unfold isDig at h
  unfold jsWhitespace
  simp only [Bool.and_eq_true, decide_eq_true_eq] at h
  simp only [Bool.or_eq_false_iff, decide_eq_false_iff_not]
  omega

/-- takeWhile of a list whose front all satisfies the test and whose
next element fails it returns exactly the front. -/
theorem takeWhile_front (q : Char → Bool) (ds : List Char) (r : Char) (rs : List Char)
    (hds : ∀ c ∈ ds, q c = true) (hr : q r = false) :
    (ds ++ r :: rs).takeWhile q = ds := by
  induction ds with
  | nil => simp [List.takeWhile_cons, hr]
  | cons d ds ih =>
    have hd : q d = true := hds d (List.mem_cons_self d ds)
    have ih2 := ih (fun c hc => hds c (List.mem_cons_of_mem d hc))
    simp [List.takeWhile_cons, hd, ih2]

/-- C10: when the role property is set and the claim value is a
string with a decimal-digit head followed by a non-digit, the mapped
role is the radix-10 value of the digit run; anchored at the
concrete input "2abc". -/
theorem oidc_C10_numeric_head_role (settings : CbSettings) (p : String)
    (ui : List (String × JsValue)) (s : String) (ds : List Char) (r : Char) (rs : List Char)
    (hp : settings.roleProperty = some p) (hpne : p ≠ "")
    (hv : uiLookup ui p = some (JsValue.str s))
    (hsplit : s.data = ds ++ r :: rs)
    (hne : ds ≠ []) (hdig : ∀ c ∈ ds, isDig c = true) (hr : isDig r = false) :
    roleOf settings ui = some (JSNumber.int (digitsVal ds)) ∧
    roleOf ⟨none, none, none, some "role"⟩ [("role", JsValue.str "2abc")] =
      some (JSNumber.int 2) := by
  refine ⟨?_, by decide⟩
  obtain ⟨d, ds', rfl⟩ : ∃ d ds', ds = d :: ds' := by
    cases ds with
    | nil => exact absurd rfl hne
    | cons d ds' => exact ⟨d, ds', rfl⟩
  have hd : isDig d = true := hdig d (List.mem_cons_self d ds')
  have hdnat : 48 ≤ d.toNat ∧ d.toNat ≤ 57 := by
    unfold isDig at hd
    simpa using hd
  have hminus : ¬ d = '-' := by
    intro h
    rw [h] at hdnat
    exact absurd hdnat (by decide)
  have hplus : ¬ d = '+' := by
    intro h
    rw [h] at hdnat
    exact absurd hdnat (by decide)
  have hndw : jsWhitespace d = false := isDig_not_ws hd
  rw [roleOf, hp]
  have htr : strOptTruthy (some p) = true := by
    simp [strOptTruthy, hpne]
  rw [if_pos htr]
  have hkey : jsKeyStr (some p) = p := rfl
  rw [hkey, hv]
  show some (jsParseInt10 s) = _
  rw [jsParseInt10, hsplit]
  simp only [List.cons_append, List.dropWhile_cons, hndw, Bool.false_eq_true, if_false]
  rw [if_neg hminus, if_neg hplus, parseDigits]
  have htw : ((d :: ds') ++ r :: rs).takeWhile isDig = d :: ds' :=
    takeWhile_front isDig (d :: ds') r rs hdig hr
  simp only [List.cons_append] at htw
  simp only [htw]
  rw [if_neg (by simp)]
  rw [one_mul]

/-- Witness for C10 at the concrete claim value "17x". -/
theorem oidc_C10_numeric_head_role_witness :
    roleOf ⟨none, none, none, some "role"⟩ [("role", JsValue.str "17x")] =
      some (JSNumber.int 17) := by
  have h := (oidc_C10_numeric_head_role ⟨none, none, none, some "role"⟩ "role"
    [("role", JsValue.str "17x")] "17x" ['1', '7'] 'x' []
    rfl (by decide) (by decide) (by decide) (by decide) (by decide) (by decide)).1
  have hv : digitsVal ['1', '7'] = 17 := by decide
  rw [hv] at h
  exact h

/-- Code point of a character made from a valid code point. -/
theorem char_toNat_ofNat {n : Nat} (h : n.isValidChar) : (Char.ofNat n).toNat = n := by
  rw [Char.ofNat, dif_pos h]
  rfl

/-- Xor of equal-length byte lists cancels on the right. -/
theorem xorBytes_cancel : ∀ (a b : List Nat), a.length = b.length →
    xorBytes (xorBytes a b) b = a := by
  intro a
  induction a with
  | nil => intro b h; rfl
  | cons x xs ih =>
    intro b h
    cases b with
    | nil => exact absurd h (by simp)
    | cons y ys =>
      simp only [xorBytes, List.zipWith_cons_cons]
      rw [Nat.xor_cancel_right]
      have := ih ys (by simpa using h)
      simp only [xorBytes] at this
      rw [this]

/-- Length of a bytewise xor. -/
theorem xorBytes_length (a b : List Nat) :
    (xorBytes a b).length = min a.length b.length :=
  List.length_zipWith _ a b

/-- Bytewise xor of byte lists stays below 256. -/
theorem xorBytes_lt : ∀ (a b : List Nat), (∀ x ∈ a, x < 256) → (∀ x ∈ b, x < 256) →
    ∀ x ∈ xorBytes a b, x < 256 := by
  intro a
  induction a with
  | nil => intro b _ _ x hx; exact absurd hx (by simp [xorBytes])
  | cons y ys ih =>
    intro b ha hb x hx
    cases b with
    | nil => exact absurd hx (by simp [xorBytes])
    | cons z zs =>
      simp only [xorBytes, List.zipWith_cons_cons, List.mem_cons] at hx
      rcases hx with rfl | hx
      · have h1 : y < 2 ^ 8 := ha y (List.mem_cons_self y ys)
        have h2 : z < 2 ^ 8 := hb z (List.mem_cons_self z zs)
        exact Nat.xor_lt_two_pow h1 h2
      · exact ih zs (fun u hu => ha u (List.mem_cons_of_mem y hu))
          (fun u hu => hb u (List.mem_cons_of_mem z hu)) x hx

/-- A hex digit decodes back to its value. -/
theorem hexVal_hexDigitChar : ∀ n : Nat, n < 16 → hexVal (hexDigitChar n) = some n := by
  decide

/-- Hex digits are never the token separator. -/
theorem hexDigitChar_ne_colon : ∀ n : Nat, n < 16 → hexDigitChar n ≠ ':' := by
  decide

/-- Hex round-trip for byte lists. -/
theorem hex_roundtrip : ∀ (bs : List Nat), (∀ b ∈ bs, b < 256) →
    hexDecodeChars (hexEncodeChars bs) = bs := by
  intro bs
  induction bs with
  | nil => intro h; rfl
  | cons b bs ih =>
    intro h
    have hb : b < 256 := h b (List.mem_cons_self b bs)
    have h1 : b / 16 < 16 := by omega
    have h2 : b % 16 < 16 := by omega
    show hexDecodeChars (hexDigitChar (b / 16) :: hexDigitChar (b % 16) :: hexEncodeChars bs) = _
    rw [hexDecodeChars, hexVal_hexDigitChar _ h1, hexVal_hexDigitChar _ h2]
    rw [ih (fun u hu => h u (List.mem_cons_of_mem b hu))]
    show (16 * (b / 16) + b % 16) :: bs = b :: bs
    have hb2 : 16 * (b / 16) + b % 16 = b := Nat.div_add_mod b 16
    rw [hb2]

/-- The hex encoding of a byte list contains no colon. -/
theorem hexEncode_no_colon : ∀ (bs : List Nat), (∀ b ∈ bs, b < 256) →
    ':' ∉ hexEncodeChars bs := by
  intro bs
  induction bs with
  | nil => intro _ h; exact absurd h (by simp [hexEncodeChars])
  | cons b bs ih =>
    intro h hc
    have hb : b < 256 := h b (List.mem_cons_self b bs)
    have hmem : (':' : Char) ∈ hexDigitChar (b / 16) :: hexDigitChar (b % 16) :: hexEncodeChars bs := hc
    simp only [List.mem_cons] at hmem
    rcases hmem with h1 | h1 | h1
    · exact hexDigitChar_ne_colon (b / 16) (by omega) h1.symm
    · exact hexDigitChar_ne_colon (b % 16) (by omega) h1.symm
    · exact ih (fun u hu => h u (List.mem_cons_of_mem b hu)) h1

/-- splitChar never returns the empty list. -/
theorem splitChar_ne_nil (sep : Char) : ∀ (l : List Char), splitChar sep l ≠ [] := by
  intro l
  induction l with
  | nil => simp [splitChar]
  | cons c rest ih =>
    rw [splitChar]
    obtain ⟨h0, t0, heq⟩ := List.exists_cons_of_ne_nil ih
    rw [heq]
    by_cases hc : c = sep
    · simp [hc]
    · simp [hc]

/-- splitChar on a list without the separator yields the list
whole. -/
theorem splitChar_not_mem (sep : Char) : ∀ (l : List Char), sep ∉ l →
    splitChar sep l = [l] := by
  intro l
  induction l with
  | nil => intro _; rfl
  | cons c rest ih =>
    intro h
    have hc : ¬ c = sep := fun hh => h (hh ▸ List.mem_cons_self c rest)
    have hr : sep ∉ rest := fun hh => h (List.mem_cons_of_mem c hh)
    rw [splitChar, ih hr]
    simp [hc]

/-- splitChar separates at the first separator occurrence. -/
theorem splitChar_append (sep : Char) : ∀ (a b : List Char), sep ∉ a →
    splitChar sep (a ++ sep :: b) = a :: splitChar sep b := by
  intro a
  induction a with
  | nil =>
    intro b _
    rw [List.nil_append, splitChar]
    obtain ⟨h0, t0, heq⟩ := List.exists_cons_of_ne_nil (splitChar_ne_nil sep b)
    rw [heq]
    simp
  | cons c rest ih =>
    intro b h
    have hc : ¬ c = sep := fun hh => h (hh ▸ List.mem_cons_self c rest)
    have hr : sep ∉ rest := fun hh => h (List.mem_cons_of_mem c hh)
    rw [List.cons_append, splitChar, ih b hr]
    simp [hc]

/-- Fuel irrelevance and unfolding for chunk splitting on nonempty
lists: with enough fuel one step peels a 16-byte block. -/
theorem chunks16Aux_cons (fuel : Nat) (x : Nat) (xs : List Nat)
    (h : (x :: xs).length ≤ fuel + 1) :
    chunks16Aux (fuel + 1) (x :: xs) =
      (x :: xs).take 16 :: chunks16Aux fuel ((x :: xs).drop 16) := rfl

/-- chunks16Aux on the empty list is empty at any fuel. -/
theorem chunks16Aux_nil (fuel : Nat) : chunks16Aux fuel [] = [] := by
  cases fuel with
  | zero => rfl
  | succ n => rfl

/-- chunks16Aux is fuel-irrelevant above the list length. -/
theorem chunks16Aux_fuel : ∀ (f1 f2 : Nat) (l : List Nat), l.length ≤ f1 → l.length ≤ f2 →
    chunks16Aux f1 l = chunks16Aux f2 l := by
  intro f1
  induction f1 with
  | zero =>
    intro f2 l h1 _
    have : l = [] := List.eq_nil_of_length_eq_zero (by omega)
    subst this
    rw [chunks16Aux_nil, chunks16Aux_nil]
  | succ n ih =>
    intro f2 l h1 h2
    cases l with
    | nil => rw [chunks16Aux_nil, chunks16Aux_nil]
    | cons x xs =>
      cases f2 with
      | zero => exact absurd h2 (by simp)
      | succ m =>
        rw [chunks16Aux, chunks16Aux]
        have hlen : ((x :: xs).drop 16).length ≤ n := by
          simp only [List.length_drop] at h1 ⊢
          simp only [List.length_cons] at h1 ⊢
          omega
        have hlen2 : ((x :: xs).drop 16).length ≤ m := by
          simp only [List.length_drop, List.length_cons] at h2 ⊢
          omega
        rw [ih m _ hlen hlen2]

/-- Concatenating the 16-byte chunks recovers the original list. -/
theorem chunks16Aux_flatten : ∀ (n : Nat) (l : List Nat), l.length ≤ n →
    (chunks16Aux n l).flatten = l := by
  intro n
  induction n with
  | zero =>
    intro l h
    have : l = [] := List.eq_nil_of_length_eq_zero (by omega)
    subst this
    rfl
  | succ n ih =>
    intro l h
    cases l with
    | nil => rfl
    | cons x xs =>
      rw [chunks16Aux, List.flatten_cons]
      have hlen : ((x :: xs).drop 16).length ≤ n := by
        simp only [List.length_drop, List.length_cons] at h ⊢
        omega
      rw [ih _ hlen]
      exact List.take_append_drop 16 (x :: xs)

/-- Concatenating the 16-byte chunks recovers the original list. -/
theorem chunks16_flatten (l : List Nat) : (chunks16 l).flatten = l :=
  chunks16Aux_flatten l.length l le_rfl

/-- Every chunk of a list whose length is a positive multiple of 16
has length exactly 16. -/
theorem chunks16Aux_mem_length : ∀ (n : Nat) (l : List Nat), l.length ≤ n →
    l.length % 16 = 0 → ∀ b ∈ chunks16Aux n l, b.length = 16 := by
  intro n
  induction n with
  | zero =>
    intro l h _ b hb
    have : l = [] := List.eq_nil_of_length_eq_zero (by omega)
    subst this
    exact absurd hb (by rw [chunks16Aux_nil]; simp)
  | succ n ih =>
    intro l h hdiv b hb
    cases l with
    | nil => exact absurd hb (by rw [chunks16Aux_nil]; simp)
    | cons x xs =>
      rw [chunks16Aux] at hb
      have h16 : 16 ≤ (x :: xs).length := by
        simp only [List.length_cons] at hdiv ⊢
        omega
      rcases List.mem_cons.mp hb with rfl | hb2
      · simp only [List.length_take]
        omega
      · exact ih ((x :: xs).drop 16) (by simp only [List.length_drop, List.length_cons] at h ⊢; omega)
          (by simp only [List.length_drop]; omega) b hb2

/-- Every chunk of a list whose length is a multiple of 16 has
length exactly 16. -/
theorem chunks16_mem_length (l : List Nat) (hdiv : l.length % 16 = 0) :
    ∀ b ∈ chunks16 l, b.length = 16 :=
  chunks16Aux_mem_length l.length l le_rfl hdiv

/-- Chunking a concatenation of 16-byte blocks recovers the
blocks. -/
theorem chunks16_of_blocks : ∀ (bs : List (List Nat)), (∀ b ∈ bs, b.length = 16) →
    chunks16 bs.flatten = bs := by
  intro bs
  induction bs with
  | nil => intro _; rfl
  | cons b bs ih =>
    intro h
    have hb : b.length = 16 := h b (List.mem_cons_self b bs)
    obtain ⟨x, xs, hbx⟩ : ∃ x xs, b = x :: xs := by
      cases b with
      | nil => exact absurd hb (by simp)
      | cons x xs => exact ⟨x, xs, rfl⟩
    subst hbx
    rw [chunks16, List.flatten_cons, List.cons_append]
    have hlen : (x :: (xs ++ bs.flatten)).length = 16 + bs.flatten.length := by
      rw [← List.cons_append, List.length_append, hb]
    rw [hlen]
    have hstep : chunks16Aux (16 + bs.flatten.length) (x :: (xs ++ bs.flatten)) =
        (x :: (xs ++ bs.flatten)).take 16 :: chunks16Aux (15 + bs.flatten.length)
          ((x :: (xs ++ bs.flatten)).drop 16) := by
      have h15 : 16 + bs.flatten.length = (15 + bs.flatten.length) + 1 := by omega
      rw [h15, chunks16Aux]
    rw [hstep]
    have ht : (x :: (xs ++ bs.flatten)).take 16 = x :: xs := by
      rw [← List.cons_append, ← hb]
      exact List.take_left _ _
    have hd : (x :: (xs ++ bs.flatten)).drop 16 = bs.flatten := by
      rw [← List.cons_append, ← hb]
      exact List.drop_left _ _
    rw [ht, hd]
    have hrest := ih (fun u hu => h u (List.mem_cons_of_mem _ hu))
    rw [chunks16] at hrest
    rw [chunks16Aux_fuel (15 + bs.flatten.length) bs.flatten.length bs.flatten (by omega) le_rfl]
    rw [hrest]

/-- Unpadding after appending a valid PKCS#7 pad recovers the
data. -/
theorem pkcs7unpad_append (q : List Nat) (p : Nat) (hp1 : 1 ≤ p) (hp16 : p ≤ 16) :
    pkcs7unpad (q ++ List.replicate p p) = some q := by
  have hrev : (q ++ List.replicate p p).reverse = List.replicate p p ++ q.reverse := by
    rw [List.reverse_append, List.reverse_replicate]
  have hcons : List.replicate p p ++ q.reverse = p :: (List.replicate (p - 1) p ++ q.reverse) := by
    have hps : p = (p - 1) + 1 := by omega
    rw [hps, List.replicate_succ]
    simp
  rw [pkcs7unpad]
  split
  · rename_i heq
    rw [hrev, hcons] at heq
    exact absurd heq (by simp)
  · rename_i n t heq
    rw [hrev, hcons] at heq
    have hn : n = p := (List.cons.injEq _ _ _ _ ▸ heq).1.symm
    have ht : t = List.replicate (p - 1) p ++ q.reverse := (List.cons.injEq _ _ _ _ ▸ heq).2.symm
    subst hn
    subst ht
    have hback : n :: (List.replicate (n - 1) n ++ q.reverse) = List.replicate n n ++ q.reverse :=
      hcons.symm
    rw [hback]
    have htake : (List.replicate n n ++ q.reverse).take n = List.replicate n n := by
      have hl : n = (List.replicate n n).length := by simp
      nth_rewrite 1 [hl]
      exact List.take_left _ _
    have hall : ((List.replicate n n ++ q.reverse).take n).all (fun x => x = n) = true := by
      rw [htake]
      simp [List.all_eq_true, List.mem_replicate]
    rw [if_pos ⟨hp1, hp16, hall⟩]
    have hdrop : (List.replicate n n ++ q.reverse).drop n = q.reverse := by
      have hl : n = (List.replicate n n).length := by simp
      nth_rewrite 1 [hl]
      exact List.drop_left _ _
    rw [hdrop, List.reverse_reverse]

/-- Unpadding inverts padding. -/
theorem pkcs7unpad_pad (bs : List Nat) : pkcs7unpad (pkcs7pad bs) = some bs := by
  rw [pkcs7pad]
  have h : bs.length % 16 < 16 := Nat.mod_lt _ (by omega)
  exact pkcs7unpad_append bs (16 - bs.length % 16) (by omega) (by omega)

/-- Unfolding step of CBC encryption. -/
theorem cbcEnc_cons (bc : BlockCipher) (key prev b : List Nat) (bs : List (List Nat)) :
    cbcEnc bc key prev (b :: bs) =
      bc.enc key (xorBytes b prev) :: cbcEnc bc key (bc.enc key (xorBytes b prev)) bs := rfl

/-- Unfolding step of CBC decryption. -/
theorem cbcDec_cons (bc : BlockCipher) (key prev c : List Nat) (cs : List (List Nat)) :
    cbcDec bc key prev (c :: cs) =
      xorBytes (bc.dec key c) prev :: cbcDec bc key c cs := rfl

/-- CBC decryption inverts CBC encryption under the block-cipher
laws at the key in use. -/
theorem cbc_roundtrip (bc : BlockCipher) (key : List Nat)
    (hinv : ∀ b, b.length = 16 → bc.dec key (bc.enc key b) = b)
    (hlen : ∀ b, b.length = 16 → (bc.enc key b).length = 16) :
    ∀ (bs : List (List Nat)) (prev : List Nat), prev.length = 16 →
      (∀ b ∈ bs, b.length = 16) →
      cbcDec bc key prev (cbcEnc bc key prev bs) = bs := by
  intro bs
  induction bs with
  | nil => intro prev _ _; rfl
  | cons b bs ih =>
    intro prev hprev hbs
    have hb : b.length = 16 := hbs b (List.mem_cons_self b bs)
    have hxl : (xorBytes b prev).length = 16 := by
      rw [xorBytes_length, hb, hprev]
      simp
    rw [cbcEnc_cons, cbcDec_cons, hinv _ hxl,
      xorBytes_cancel b prev (by rw [hb, hprev]),
      ih (bc.enc key (xorBytes b prev)) (hlen _ hxl)
        (fun u hu => hbs u (List.mem_cons_of_mem _ hu))]

/-- Every CBC ciphertext block has length 16 under the cipher
laws. -/
theorem cbcEnc_mem_length (bc : BlockCipher) (key : List Nat)
    (hlen : ∀ b, b.length = 16 → (bc.enc key b).length = 16) :
    ∀ (bs : List (List Nat)) (prev : List Nat), prev.length = 16 →
      (∀ b ∈ bs, b.length = 16) →
      ∀ c ∈ cbcEnc bc key prev bs, c.length = 16 := by
  intro bs
  induction bs with
  | nil => intro prev _ _ c hc; exact absurd hc (by simp [cbcEnc])
  | cons b bs ih =>
    intro prev hprev hbs c hc
    have hb : b.length = 16 := hbs b (List.mem_cons_self b bs)
    have hxl : (xorBytes b prev).length = 16 := by
      rw [xorBytes_length, hb, hprev]
      simp
    rw [cbcEnc_cons] at hc
    rcases List.mem_cons.mp hc with rfl | hc2
    · exact hlen _ hxl
    · exact ih (bc.enc key (xorBytes b prev)) (hlen _ hxl)
        (fun u hu => hbs u (List.mem_cons_of_mem _ hu)) c hc2

/-- Every CBC ciphertext byte stays below 256 when the cipher
preserves byte range. -/
theorem cbcEnc_mem_lt (bc : BlockCipher) (key : List Nat)
    (hrng : ∀ b, (∀ x ∈ b, x < 256) → ∀ x ∈ bc.enc key b, x < 256) :
    ∀ (bs : List (List Nat)) (prev : List Nat), (∀ x ∈ prev, x < 256) →
      (∀ b ∈ bs, ∀ x ∈ b, x < 256) →
      ∀ c ∈ cbcEnc bc key prev bs, ∀ x ∈ c, x < 256 := by
  intro bs
  induction bs with
  | nil => intro prev _ _ c hc; exact absurd hc (by simp [cbcEnc])
  | cons b bs ih =>
    intro prev hprev hbs c hc
    have hb : ∀ x ∈ b, x < 256 := hbs b (List.mem_cons_self b bs)
    have hx : ∀ x ∈ xorBytes b prev, x < 256 := xorBytes_lt b prev hb hprev
    have hc1 : ∀ x ∈ bc.enc key (xorBytes b prev), x < 256 := hrng _ hx
    rw [cbcEnc_cons] at hc
    rcases List.mem_cons.mp hc with rfl | hc2
    · exact hc1
    · exact ih (bc.enc key (xorBytes b prev)) hc1
        (fun u hu => hbs u (List.mem_cons_of_mem _ hu)) c hc2

/-- CBC encryption preserves the block count. -/
theorem cbcEnc_length (bc : BlockCipher) (key : List Nat) :
    ∀ (bs : List (List Nat)) (prev : List Nat),
      (cbcEnc bc key prev bs).length = bs.length := by
  intro bs
  induction bs with
  | nil => intro prev; rfl
  | cons b bs ih =>
    intro prev
    rw [cbcEnc_cons, List.length_cons, List.length_cons, ih]

/-- Length of a concatenation of 16-byte blocks. -/
theorem flatten_len_16 : ∀ (bs : List (List Nat)), (∀ b ∈ bs, b.length = 16) →
    bs.flatten.length = 16 * bs.length := by
  intro bs
  induction bs with
  | nil => intro _; rfl
  | cons b bs ih =>
    intro h
    rw [List.flatten_cons, List.length_append, h b (List.mem_cons_self b bs),
      ih (fun u hu => h u (List.mem_cons_of_mem _ hu)), List.length_cons]
    ring

/-- UTF-8 encoding of an ASCII character is its code point. -/
theorem utf8EncodeChar_ascii (c : Char) (h : c.toNat < 128) :
    utf8EncodeChar c = [c.toNat] := by
  simp [utf8EncodeChar, h]

/-- UTF-8 encoding of an ASCII character list is the code-point
list. -/
theorem utf8Encode_ascii_list : ∀ (l : List Char), (∀ c ∈ l, c.toNat < 128) →
    (l.map utf8EncodeChar).flatten = l.map Char.toNat := by
  intro l
  induction l with
  | nil => intro _; rfl
  | cons c cs ih =>
    intro h
    rw [List.map_cons, List.flatten_cons, utf8EncodeChar_ascii c (h c (List.mem_cons_self c cs)),
      ih (fun u hu => h u (List.mem_cons_of_mem _ hu)), List.map_cons]
    rfl

/-- UTF-8 encoding of an ASCII string is its code-point list. -/
theorem utf8Encode_ascii (s : String) (h : ∀ c ∈ s.data, c.toNat < 128) :
    utf8Encode s = s.data.map Char.toNat := by
  rw [utf8Encode]
  exact utf8Encode_ascii_list s.data h

/-- Lenient UTF-8 decoding of ASCII bytes is the character list. -/
theorem utf8DecodeAux_ascii : ∀ (fuel : Nat) (l : List Nat), (∀ b ∈ l, b < 128) →
    l.length ≤ fuel → utf8DecodeLenientAux fuel l = l.map Char.ofNat := by
  intro fuel
  induction fuel with
  | zero =>
    intro l _ h
    have : l = [] := List.eq_nil_of_length_eq_zero (by omega)
    subst this
    rfl
  | succ n ih =>
    intro l hl h
    cases l with
    | nil => rfl
    | cons b rest =>
      have hb : b < 128 := hl b (List.mem_cons_self b rest)
      have hstep : utf8DecodeLenientAux (n + 1) (b :: rest) =
          Char.ofNat b :: utf8DecodeLenientAux n rest := by
        show (if b < 128 then Char.ofNat b :: utf8DecodeLenientAux n rest else _) = _
        rw [if_pos hb]
      rw [hstep, List.map_cons,
        ih rest (fun u hu => hl u (List.mem_cons_of_mem _ hu)) (by simp at h ⊢; omega)]

/-- Round-trip of the Node UTF-8 encodings on ASCII strings. -/
theorem utf8_roundtrip_ascii (s : String) (h : ∀ c ∈ s.data, c.toNat < 128) :
    utf8DecodeLenient (utf8Encode s) = s := by
  rw [utf8DecodeLenient, utf8Encode_ascii s h]
  rw [utf8DecodeAux_ascii _ _
    (fun b hb => by
      obtain ⟨c, hc, rfl⟩ := List.mem_map.mp hb
      exact h c hc)
    (by simp)]
  rw [List.map_map]
  have hid : ∀ x ∈ s.data, (Char.ofNat ∘ Char.toNat) x = x := fun x _ => Char.ofNat_toNat x
  rw [List.map_congr_left hid]
  show String.mk (s.data.map (fun a => a)) = s
  rw [List.map_id']

/-- Token characters are ASCII. -/
theorem tokenChar_lt (c : Char) (h : tokenChar c = true) : c.toNat < 128 := by
  unfold tokenChar at h
  simp only [Bool.or_eq_true, Bool.and_eq_true, decide_eq_true_eq] at h
  omega

/-- Reduction of the decrypt function once the token has split into
an IV part and a ciphertext part. -/
theorem decryptModel_parts (bc : BlockCipher) (key : List Nat) (token : String)
    (p0 p1 : List Char) (rest : List (List Char))
    (hsplit : splitChar ':' token.data = p0 :: p1 :: rest) :
    decryptModel bc key token =
      (if key.length ≠ 32 then Except.error "Invalid key length"
       else if (hexDecodeChars p0).length ≠ 16 then
         Except.error "Invalid initialization vector"
       else if (hexDecodeChars p1).length = 0 ∨ (hexDecodeChars p1).length % 16 ≠ 0 then
         Except.error "wrong final block length"
       else
         match pkcs7unpad ((cbcDec bc key (hexDecodeChars p0)
             (chunks16 (hexDecodeChars p1))).flatten) with
         | some pt => Except.ok (utf8DecodeLenient pt)
         | none => Except.error "bad decrypt") := by
  rw [decryptModel, hsplit]

/-- C1: decrypting the result of encrypting any string over the
token character set with the same key returns the original string,
for every block cipher satisfying the inverse, length and range laws
at that key (the AES-256 core satisfies them). -/
theorem oidc_C1_encrypt_decrypt_roundtrip
    (bc : BlockCipher) (key iv : List Nat)
    (hkey : key.length = 32)
    (hiv : iv.length = 16) (hivb : ∀ x ∈ iv, x < 256)
    (hlen : ∀ b, b.length = 16 → (bc.enc key b).length = 16)
    (hrng : ∀ b, (∀ x ∈ b, x < 256) → ∀ x ∈ bc.enc key b, x < 256)
    (hinv : ∀ b, b.length = 16 → bc.dec key (bc.enc key b) = b)
    (s : String) (hs : ∀ c ∈ s.data, tokenChar c = true) :
    decryptModel bc key (encryptModel bc key iv s) = Except.ok s := by
  have hascii : ∀ c ∈ s.data, c.toNat < 128 := fun c hc => tokenChar_lt c (hs c hc)
  have hptlt : ∀ x ∈ utf8Encode s, x < 256 := by
    rw [utf8Encode_ascii s hascii]
    intro x hx
    obtain ⟨c, hc, rfl⟩ := List.mem_map.mp hx
    have := hascii c hc
    omega
  have hmod : (utf8Encode s).length % 16 < 16 := Nat.mod_lt _ (by omega)
  have hpadlt : ∀ x ∈ pkcs7pad (utf8Encode s), x < 256 := by
    rw [pkcs7pad]
    intro x hx
    rcases List.mem_append.mp hx with h1 | h1
    · exact hptlt x h1
    · have := List.eq_of_mem_replicate h1
      omega
  have hpaddiv : (pkcs7pad (utf8Encode s)).length % 16 = 0 := by
    rw [pkcs7pad, List.length_append, List.length_replicate]
    omega
  have hblocks_len : ∀ b ∈ chunks16 (pkcs7pad (utf8Encode s)), b.length = 16 :=
    chunks16_mem_length _ hpaddiv
  have hblocks_lt : ∀ b ∈ chunks16 (pkcs7pad (utf8Encode s)), ∀ x ∈ b, x < 256 := by
    intro b hb x hx
    apply hpadlt
    rw [← chunks16_flatten (pkcs7pad (utf8Encode s))]
    exact List.mem_flatten.mpr ⟨b, hb, hx⟩
  have hcts_len : ∀ c ∈ cbcEnc bc key iv (chunks16 (pkcs7pad (utf8Encode s))), c.length = 16 :=
    cbcEnc_mem_length bc key hlen _ iv hiv hblocks_len
  have hcts_lt : ∀ c ∈ cbcEnc bc key iv (chunks16 (pkcs7pad (utf8Encode s))), ∀ x ∈ c, x < 256 :=
    cbcEnc_mem_lt bc key hrng _ iv hivb hblocks_lt
  have hct_lt : ∀ x ∈ ctBytes bc key iv s, x < 256 := by
    rw [ctBytes]
    intro x hx
    obtain ⟨c, hc, hxc⟩ := List.mem_flatten.mp hx
    exact hcts_lt c hc x hxc
  have hchne : chunks16 (pkcs7pad (utf8Encode s)) ≠ [] := by
    intro hh
    have hfl := chunks16_flatten (pkcs7pad (utf8Encode s))
    rw [hh] at hfl
    have hlenp : (pkcs7pad (utf8Encode s)).length = 0 := by
      rw [← hfl]
      rfl
    rw [pkcs7pad, List.length_append, List.length_replicate] at hlenp
    omega
  have hct_len : (ctBytes bc key iv s).length =
      16 * (chunks16 (pkcs7pad (utf8Encode s))).length := by
    rw [ctBytes, flatten_len_16 _ hcts_len, cbcEnc_length]
  have hcount : 0 < (chunks16 (pkcs7pad (utf8Encode s))).length :=
    List.length_pos.mpr hchne
  have htok : (encryptModel bc key iv s).data =
      hexEncodeChars iv ++ ':' :: hexEncodeChars (ctBytes bc key iv s) := rfl
  have hsplit : splitChar ':' (encryptModel bc key iv s).data =
      hexEncodeChars iv :: hexEncodeChars (ctBytes bc key iv s) :: [] := by
    rw [htok, splitChar_append ':' _ _ (hexEncode_no_colon iv hivb),
      splitChar_not_mem ':' _ (hexEncode_no_colon _ hct_lt)]
  rw [decryptModel_parts bc key _ _ _ _ hsplit]
  rw [hex_roundtrip iv hivb, hex_roundtrip _ hct_lt]
  rw [if_neg (by omega), if_neg (by omega), if_neg (by omega)]
  rw [ctBytes, chunks16_of_blocks _ hcts_len,
    cbc_roundtrip bc key hinv hlen _ iv hiv hblocks_len,
    chunks16_flatten, pkcs7unpad_pad]
  show Except.ok (utf8DecodeLenient (utf8Encode s)) = Except.ok s
  rw [utf8_roundtrip_ascii s hascii]

/-- The witness cipher's key stream has block length. -/
theorem xorKeyStream_length (k : List Nat) : (xorKeyStream k).length = 16 := by
  rw [xorKeyStream, List.length_take, List.length_append, List.length_replicate]
  omega

/-- The witness cipher preserves block length. -/
theorem xorBC_enc_length (k b : List Nat) (hb : b.length = 16) :
    (xorBlockCipher.enc k b).length = 16 := by
  show (xorBytes b (xorKeyStream k)).length = 16
  rw [xorBytes_length, hb, xorKeyStream_length]
  simp

/-- The witness cipher is an involution on 16-byte blocks. -/
theorem xorBC_inv (k b : List Nat) (hb : b.length = 16) :
    xorBlockCipher.dec k (xorBlockCipher.enc k b) = b := by
  show xorBytes (xorBytes b (xorKeyStream k)) (xorKeyStream k) = b
  exact xorBytes_cancel b _ (by rw [hb, xorKeyStream_length])

/-- The witness cipher's key stream stays below 256 for byte
keys. -/
theorem xorKeyStream_lt (k : List Nat) (hk : ∀ x ∈ k, x < 256) :
    ∀ x ∈ xorKeyStream k, x < 256 := by
  intro x hx
  rw [xorKeyStream] at hx
  rcases List.mem_append.mp (List.take_subset _ _ hx) with h1 | h1
  · exact hk x h1
  · have := List.eq_of_mem_replicate h1
    omega

/-- The witness cipher preserves byte range for byte keys. -/
theorem xorBC_rng (k b : List Nat) (hk : ∀ x ∈ k, x < 256) (hb : ∀ x ∈ b, x < 256) :
    ∀ x ∈ xorBlockCipher.enc k b, x < 256 :=
  xorBytes_lt b _ hb (xorKeyStream_lt k hk)

/-- Witness for C1 at a concrete cipher, key, IV and plaintext. -/
theorem oidc_C1_encrypt_decrypt_roundtrip_witness :
    decryptModel xorBlockCipher (List.range 32)
      (encryptModel xorBlockCipher (List.range 32) (List.range 16) "hello") =
      Except.ok "hello" :=
  oidc_C1_encrypt_decrypt_roundtrip xorBlockCipher (List.range 32) (List.range 16)
    (by decide) (by decide) (by decide)
    (fun b hb => xorBC_enc_length _ b hb)
    (fun b hbr => xorBC_rng _ b (by decide) hbr)
    (fun b hb => xorBC_inv _ b hb)
    "hello" (by decide)

/-- First-byte modification preserves list length. -/
theorem flipFirst_length (l : List Nat) : (flipFirst l).length = l.length := by
  cases l with
  | nil => rfl
  | cons x xs => rfl

/-- First-byte modification preserves the byte range. -/
theorem flipFirst_lt (l : List Nat) (h : ∀ x ∈ l, x < 256) :
    ∀ x ∈ flipFirst l, x < 256 := by
  cases l with
  | nil => exact h
  | cons y ys =>
    intro x hx
    rcases List.mem_cons.mp hx with rfl | hx2
    · have h1 : y < 2 ^ 8 := h y (List.mem_cons_self y ys)
      exact Nat.xor_lt_two_pow h1 (by omega)
    · exact h x (List.mem_cons_of_mem _ hx2)

/-- First-byte modification distributes over appending to a
nonempty front. -/
theorem flipFirst_append (a b : List Nat) (h : a ≠ []) :
    flipFirst (a ++ b) = flipFirst a ++ b := by
  cases a with
  | nil => exact absurd rfl h
  | cons x xs => rfl

/-- Decrypting a CBC first block under a first-byte-modified IV
flips exactly the first plaintext byte. -/
theorem xorBytes_flip (B iv : List Nat) (h : B.length = iv.length) :
    xorBytes (xorBytes B iv) (flipFirst iv) = flipFirst B := by
  cases iv with
  | nil =>
    have : B = [] := List.eq_nil_of_length_eq_zero (by rw [h]; rfl)
    subst this
    rfl
  | cons i is =>
    cases B with
    | nil => exact absurd h (by simp)
    | cons b bs =>
      show ((b ^^^ i) ^^^ (i ^^^ 1)) :: xorBytes (xorBytes bs is) is = (b ^^^ 1) :: bs
      have h1 : (b ^^^ i) ^^^ (i ^^^ 1) = b ^^^ 1 := by
        rw [← Nat.xor_assoc, Nat.xor_cancel_right]
      have h2 : xorBytes (xorBytes bs is) is = bs :=
        xorBytes_cancel bs is (by simpa using h)
      rw [h1, h2]

/-- Code points below the surrogate range are valid characters. -/
theorem isValidChar_of_lt_128 {n : Nat} (h : n < 128) : n.isValidChar :=
  Or.inl (by omega)

/-- A number below 128 is not changed by the character
round-trip. -/
theorem toNat_ofNat_lt_128 {n : Nat} (h : n < 128) : (Char.ofNat n).toNat = n :=
  char_toNat_ofNat (isValidChar_of_lt_128 h)

/-- Xor with one never fixes a number. -/
theorem xor_one_ne (x : Nat) : x ^^^ 1 ≠ x := by
  intro h
  have h1 : (x ^^^ 1) ^^^ x = x ^^^ x := by rw [h]
  rw [Nat.xor_self] at h1
  rw [Nat.xor_comm x 1, Nat.xor_cancel_right] at h1
  exact absurd h1 (by omega)

/-- C6 (amended): modifying the IV segment of a token whose
plaintext has at least 16 bytes does not make decryption fail: it
succeeds and silently returns a plaintext that differs from the
original in its first character.  CBC decryption authenticates
nothing; only the padding of the final block is checked, and the IV
influences only the first block. -/
theorem oidc_C6_iv_tamper_wrong_plaintext
    (bc : BlockCipher) (key iv : List Nat)
    (hkey : key.length = 32)
    (hiv : iv.length = 16) (hivb : ∀ x ∈ iv, x < 256)
    (hlen : ∀ b, b.length = 16 → (bc.enc key b).length = 16)
    (hrng : ∀ b, (∀ x ∈ b, x < 256) → ∀ x ∈ bc.enc key b, x < 256)
    (hinv : ∀ b, b.length = 16 → bc.dec key (bc.enc key b) = b)
    (s : String) (hs : ∀ c ∈ s.data, tokenChar c = true) (hs16 : 16 ≤ s.data.length) :
    decryptModel bc key (String.mk (hexEncodeChars (flipFirst iv) ++ ':' ::
        hexEncodeChars (ctBytes bc key iv s))) =
      Except.ok (utf8DecodeLenient (flipFirst (utf8Encode s))) ∧
    utf8DecodeLenient (flipFirst (utf8Encode s)) ≠ s := by
  have hascii : ∀ c ∈ s.data, c.toNat < 128 := fun c hc => tokenChar_lt c (hs c hc)
  have henc : utf8Encode s = s.data.map Char.toNat := utf8Encode_ascii s hascii
  have hptlt : ∀ x ∈ utf8Encode s, x < 256 := by
    rw [henc]
    intro x hx
    obtain ⟨c, hc, rfl⟩ := List.mem_map.mp hx
    have := hascii c hc
    omega
  have hptlen : (utf8Encode s).length = s.data.length := by
    rw [henc, List.length_map]
  have hmod : (utf8Encode s).length % 16 < 16 := Nat.mod_lt _ (by omega)
  have hpadlt : ∀ x ∈ pkcs7pad (utf8Encode s), x < 256 := by
    rw [pkcs7pad]
    intro x hx
    rcases List.mem_append.mp hx with h1 | h1
    · exact hptlt x h1
    · have := List.eq_of_mem_replicate h1
      omega
  have hpaddiv : (pkcs7pad (utf8Encode s)).length % 16 = 0 := by
    rw [pkcs7pad, List.length_append, List.length_replicate]
    omega
  have hblocks_len : ∀ b ∈ chunks16 (pkcs7pad (utf8Encode s)), b.length = 16 :=
    chunks16_mem_length _ hpaddiv
  have hblocks_lt : ∀ b ∈ chunks16 (pkcs7pad (utf8Encode s)), ∀ x ∈ b, x < 256 := by
    intro b hb x hx
    apply hpadlt
    rw [← chunks16_flatten (pkcs7pad (utf8Encode s))]
    exact List.mem_flatten.mpr ⟨b, hb, hx⟩
  have hcts_len : ∀ c ∈ cbcEnc bc key iv (chunks16 (pkcs7pad (utf8Encode s))), c.length = 16 :=
    cbcEnc_mem_length bc key hlen _ iv hiv hblocks_len
  have hcts_lt : ∀ c ∈ cbcEnc bc key iv (chunks16 (pkcs7pad (utf8Encode s))), ∀ x ∈ c, x < 256 :=
    cbcEnc_mem_lt bc key hrng _ iv hivb hblocks_lt
  have hct_lt : ∀ x ∈ ctBytes bc key iv s, x < 256 := by
    rw [ctBytes]
    intro x hx
    obtain ⟨c, hc, hxc⟩ := List.mem_flatten.mp hx
    exact hcts_lt c hc x hxc
  have hchne : chunks16 (pkcs7pad (utf8Encode s)) ≠ [] := by
    intro hh
    have hfl := chunks16_flatten (pkcs7pad (utf8Encode s))
    rw [hh] at hfl
    have hlenp : (pkcs7pad (utf8Encode s)).length = 0 := by
      rw [← hfl]
      rfl
    rw [pkcs7pad, List.length_append, List.length_replicate] at hlenp
    omega
  have hct_len : (ctBytes bc key iv s).length =
      16 * (chunks16 (pkcs7pad (utf8Encode s))).length := by
    rw [ctBytes, flatten_len_16 _ hcts_len, cbcEnc_length]
  have hcount : 0 < (chunks16 (pkcs7pad (utf8Encode s))).length :=
    List.length_pos.mpr hchne
  have hiv2 : (flipFirst iv).length = 16 := by rw [flipFirst_length, hiv]
  have hiv2b : ∀ x ∈ flipFirst iv, x < 256 := flipFirst_lt iv hivb
  constructor
  · have hsplit : splitChar ':' (String.mk (hexEncodeChars (flipFirst iv) ++ ':' ::
        hexEncodeChars (ctBytes bc key iv s))).data =
        hexEncodeChars (flipFirst iv) :: hexEncodeChars (ctBytes bc key iv s) :: [] := by
      show splitChar ':' (hexEncodeChars (flipFirst iv) ++ ':' ::
        hexEncodeChars (ctBytes bc key iv s)) = _
      rw [splitChar_append ':' _ _ (hexEncode_no_colon _ hiv2b),
        splitChar_not_mem ':' _ (hexEncode_no_colon _ hct_lt)]
    rw [decryptModel_parts bc key _ _ _ _ hsplit]
    rw [hex_roundtrip _ hiv2b, hex_roundtrip _ hct_lt]
    rw [if_neg (by omega), if_neg (by omega), if_neg (by omega)]
    rw [ctBytes, chunks16_of_blocks _ hcts_len]
    obtain ⟨B, rest, hBr⟩ := List.exists_cons_of_ne_nil hchne
    have hB16 : B.length = 16 := hblocks_len B (by rw [hBr]; exact List.mem_cons_self B rest)
    have hrest16 : ∀ b ∈ rest, b.length = 16 := fun b hb =>
      hblocks_len b (by rw [hBr]; exact List.mem_cons_of_mem _ hb)
    have hxB : (xorBytes B iv).length = 16 := by
      rw [xorBytes_length, hB16, hiv]
      simp
    rw [hBr, cbcEnc_cons, cbcDec_cons, hinv _ hxB,
      cbc_roundtrip bc key hinv hlen rest _ (hlen _ hxB) hrest16]
    have hflatten : (xorBytes (xorBytes B iv) (flipFirst iv) :: rest).flatten =
        flipFirst (pkcs7pad (utf8Encode s)) := by
      rw [List.flatten_cons, xorBytes_flip B iv (by rw [hB16, hiv])]
      have hfl := chunks16_flatten (pkcs7pad (utf8Encode s))
      rw [hBr, List.flatten_cons] at hfl
      rw [← hfl, ← flipFirst_append B rest.flatten (by
        intro hh
        rw [hh] at hB16
        exact absurd hB16 (by simp))]
    rw [hflatten]
    have hpadflip : flipFirst (pkcs7pad (utf8Encode s)) =
        flipFirst (utf8Encode s) ++
          List.replicate (16 - (utf8Encode s).length % 16) (16 - (utf8Encode s).length % 16) := by
      rw [pkcs7pad]
      exact flipFirst_append _ _ (by
        intro hh
        rw [hh] at hptlen
        simp only [List.length_nil] at hptlen
        omega)
    rw [hpadflip, pkcs7unpad_append _ _ (by omega) (by omega)]
  · obtain ⟨c0, cs, hc0⟩ : ∃ c0 cs, s.data = c0 :: cs := by
      cases hd : s.data with
      | nil => rw [hd] at hs16; exact absurd hs16 (by simp)
      | cons c0 cs => exact ⟨c0, cs, rfl⟩
    have hc0lt : c0.toNat < 128 := hascii c0 (by rw [hc0]; exact List.mem_cons_self c0 cs)
    have hflip : flipFirst (utf8Encode s) = (c0.toNat ^^^ 1) :: cs.map Char.toNat := by
      rw [henc, hc0, List.map_cons]
      rfl
    have hlt : ∀ b ∈ (c0.toNat ^^^ 1) :: cs.map Char.toNat, b < 128 := by
      intro b hb
      rcases List.mem_cons.mp hb with rfl | hb2
      · exact Nat.xor_lt_two_pow (show c0.toNat < 2 ^ 7 from hc0lt) (by omega)
      · obtain ⟨c, hc, rfl⟩ := List.mem_map.mp hb2
        exact hascii c (by rw [hc0]; exact List.mem_cons_of_mem _ hc)
    rw [hflip, utf8DecodeLenient, utf8DecodeAux_ascii _ _ hlt le_rfl]
    intro hcontra
    have hdata : (Char.ofNat (c0.toNat ^^^ 1) :: (cs.map Char.toNat).map Char.ofNat) =
        s.data := congrArg String.data (by
      rw [← hcontra, List.map_cons])
    rw [hc0] at hdata
    have hhead : Char.ofNat (c0.toNat ^^^ 1) = c0 := (List.cons.injEq _ _ _ _ ▸ hdata).1
    have htn : (Char.ofNat (c0.toNat ^^^ 1)).toNat = c0.toNat ^^^ 1 :=
      toNat_ofNat_lt_128 (Nat.xor_lt_two_pow (show c0.toNat < 2 ^ 7 from hc0lt) (by omega))
    rw [hhead] at htn
    exact xor_one_ne c0.toNat htn.symm

/-- Counterexample to C6 as stated: a token whose IV segment has
been modified (same ciphertext segment, first IV byte's low bit
flipped) decrypts without error and silently returns a wrong
plaintext, while the unmodified token decrypts to the original. -/
theorem oidc_C6_counterexample :
    exceptToOption (decryptModel xorBlockCipher (List.range 32)
      (String.mk (hexEncodeChars (flipFirst (List.range 16)) ++ ':' ::
        hexEncodeChars (ctBytes xorBlockCipher (List.range 32) (List.range 16)
          "bbbbbbbbbbbbbbbb")))) = some "cbbbbbbbbbbbbbbb" ∧
    "cbbbbbbbbbbbbbbb" ≠ "bbbbbbbbbbbbbbbb" ∧
    exceptToOption (decryptModel xorBlockCipher (List.range 32)
      (encryptModel xorBlockCipher (List.range 32) (List.range 16)
        "bbbbbbbbbbbbbbbb")) = some "bbbbbbbbbbbbbbbb" := by
  decide

/-- Witness for the amended C6 at a concrete cipher, key, IV and
plaintext. -/
theorem oidc_C6_iv_tamper_wrong_plaintext_witness :
    decryptModel xorBlockCipher (List.range 32)
      (String.mk (hexEncodeChars (flipFirst (List.range 16)) ++ ':' ::
        hexEncodeChars (ctBytes xorBlockCipher (List.range 32) (List.range 16)
          "ffffffffffffffff"))) =
      Except.ok (utf8DecodeLenient (flipFirst (utf8Encode "ffffffffffffffff"))) ∧
    utf8DecodeLenient (flipFirst (utf8Encode "ffffffffffffffff")) ≠ "ffffffffffffffff" :=
  oidc_C6_iv_tamper_wrong_plaintext xorBlockCipher (List.range 32) (List.range 16)
    (by decide) (by decide) (by decide)
    (fun b hb => xorBC_enc_length _ b hb)
    (fun b hbr => xorBC_rng _ b (by decide) hbr)
    (fun b hb => xorBC_inv _ b hb)
    "ffffffffffffffff" (by decide) (by decide)

/-- C2 (code bug): after a successful registration, a reconfigure
with an empty discover URL clears the store and registers nothing
new, but the previously registered method stays registered: the
source unregisters the name "openid" while it registered the name
"openid-connect". -/
theorem oidc_C2_unregister_name_mismatch :
    let st0 : Store := ⟨none, none, "https://tube.example/cb"⟩
    let h0 : HostState := ⟨[], 0⟩
    let good : ReconfSettings := ⟨some "https://idp.example/.well-known", some "abc", none⟩
    let off : ReconfSettings := ⟨none, some "abc", none⟩
    let r1 := reconfigure st0 h0 good true
    let r2 := reconfigure r1.1 r1.2.1 off true
    r1.2.1.registered = ["openid-connect"] ∧
    r1.1.client.isSome = true ∧
    r2.1.client = none ∧
    r2.1.userAuthenticated = none ∧
    r2.2.1.registered = ["openid-connect"] := by
  decide

/-- C5: a callback request whose transport cookie is missing, or
present but failing decryption, gets exactly the generic error
redirect and no identity hand-off, whatever the other inputs. -/
theorem oidc_C5_error_redirect_on_bad_cookie
    (bc : BlockCipher) (key : List Nat) (ua : Option Nat)
    (cookies : List (String × String))
    (tokenExchange : String → Except Unit TokenSet)
    (userinfo : String → Except Unit (List (String × JsValue)))
    (settings : CbSettings)
    (h : reqCookie cookies cookieName = none ∨
      ∃ v e, reqCookie cookies cookieName = some v ∧ decryptModel bc key v = Except.error e) :
    handleCbModel bc key ua cookies tokenExchange userinfo settings =
      ([ResAction.redirect "/login?externalAuthError=true"], none) := by
  cases ua with
  | none => rfl
  | some n =>
    rcases h with hmiss | ⟨v, e, hv, hdec⟩
    · show (if ¬ strOptTruthy (reqCookie cookies cookieName) then _ else _) = _
      rw [hmiss]
      rfl
    · show (if ¬ strOptTruthy (reqCookie cookies cookieName) then _ else _) = _
      rw [hv]
      by_cases hve : v = ""
      · subst hve
        rfl
      · have htr : strOptTruthy (some v) = true := by
          simp [strOptTruthy, hve]
        rw [htr]
        show (match decryptModel bc key ((some v).getD "") with
          | .error _ => ([onCBErrorAction], none)
          | .ok cv =>
            match tokenExchange cv with
            | .error _ => ([onCBErrorAction], none)
            | .ok ts =>
              match userinfo ts.access_token with
              | .error _ => ([onCBErrorAction], none)
              | .ok ui =>
                match mapUserInfo settings ui with
                | .error _ => ([onCBErrorAction], none)
                | .ok ident => ([], some ident)) = _
        show (match decryptModel bc key v with
          | .error _ => ([onCBErrorAction], none)
          | .ok cv =>
            match tokenExchange cv with
            | .error _ => ([onCBErrorAction], none)
            | .ok ts =>
              match userinfo ts.access_token with
              | .error _ => ([onCBErrorAction], none)
              | .ok ui =>
                match mapUserInfo settings ui with
                | .error _ => ([onCBErrorAction], none)
                | .ok ident => ([], some ident)) = _
        rw [hdec]
        rfl

/-- Witness for C5: a missing cookie and a tampered cookie on
concrete requests. -/
theorem oidc_C5_error_redirect_on_bad_cookie_witness :
    handleCbModel xorBlockCipher (List.range 32) (some 0) []
      (fun v => Except.ok ⟨"tok"⟩) (fun a => Except.ok []) ⟨none, none, none, none⟩ =
      ([ResAction.redirect "/login?externalAuthError=true"], none) ∧
    handleCbModel xorBlockCipher (List.range 32) (some 0) [(cookieName, "zz")]
      (fun v => Except.ok ⟨"tok"⟩) (fun a => Except.ok []) ⟨none, none, none, none⟩ =
      ([ResAction.redirect "/login?externalAuthError=true"], none) := by
  constructor
  · exact oidc_C5_error_redirect_on_bad_cookie xorBlockCipher (List.range 32) (some 0) []
      (fun v => Except.ok ⟨"tok"⟩) (fun a => Except.ok []) ⟨none, none, none, none⟩
      (Or.inl (by decide))
  · exact oidc_C5_error_redirect_on_bad_cookie xorBlockCipher (List.range 32) (some 0)
      [(cookieName, "zz")]
      (fun v => Except.ok ⟨"tok"⟩) (fun a => Except.ok []) ⟨none, none, none, none⟩
      (Or.inr ⟨"zz", "TypeError: second token segment is undefined", by decide, rfl⟩)

/-- C7: the auth-request handler logs exactly when some step fails,
and in that case sends no redirect (and no error response) to the
client. -/
theorem oidc_C7_auth_error_leaves_request_unresolved
    (o : AuthOracles) (webserverUrl : String) :
    (authRequestFails o = true ↔ (onAuthRequestModel o webserverUrl).2 = true) ∧
    (authRequestFails o = true →
      ∀ a ∈ (onAuthRequestModel o webserverUrl).1, isRedirect a = false) := by
  unfold authRequestFails onAuthRequestModel
  cases hcv : o.codeVerifier with
  | error u => simp
  | ok cv =>
    cases hcc : o.codeChallenge cv with
    | error u => simp [hcc]
    | ok cc =>
      cases hurl : o.authorizationUrl
          { scope := "openid email profile", response_mode := "form_post",
            code_challenge := cc, code_challenge_method := "S256" } with
      | error u => simp [hcc, hurl]
      | ok url =>
        cases henc : o.encryptStep cv with
        | error u => simp [hcc, hurl, henc]
        | ok ecv =>
          by_cases hck : o.cookieOk
          · by_cases hrd : o.redirectOk
            · simp [hcc, hurl, henc, hck, hrd]
            · simp [hcc, hurl, henc, hck, hrd, isRedirect]
          · simp [hcc, hurl, henc, hck, isRedirect]

/-- Witness for C7: a concrete failing encryption step. -/
theorem oidc_C7_auth_error_leaves_request_unresolved_witness :
    authRequestFails ⟨Except.ok "cv", fun v => Except.ok "cc",
        fun p => Except.ok "https://idp.example/auth?x=1",
        fun v => Except.error (), true, true⟩ = true ∧
    (∀ a ∈ (onAuthRequestModel ⟨Except.ok "cv", fun v => Except.ok "cc",
        fun p => Except.ok "https://idp.example/auth?x=1",
        fun v => Except.error (), true, true⟩ "https://tube.example").1,
      isRedirect a = false) :=
  ⟨by decide,
    (oidc_C7_auth_error_leaves_request_unresolved ⟨Except.ok "cv", fun v => Except.ok "cc",
      fun p => Except.ok "https://idp.example/auth?x=1",
      fun v => Except.error (), true, true⟩ "https://tube.example").2 (by decide)⟩

/-- C8 (counterexample to the claim as stated): the acceptance
handle is re-captured on every successful reconfiguration (so it is
not captured only once), and after a disabling reconfiguration a
callback finds no acceptor even though a successful registration had
completed (so an in-flight callback is orphaned): it is answered by
the generic error redirect while the method is still registered. -/
theorem oidc_C8_counterexample :
    let st0 : Store := ⟨none, none, "https://tube.example/cb"⟩
    let h0 : HostState := ⟨[], 0⟩
    let good : ReconfSettings := ⟨some "https://idp.example/.well-known", some "abc", none⟩
    let off : ReconfSettings := ⟨none, some "abc", none⟩
    let r1 := reconfigure st0 h0 good true
    let r2 := reconfigure r1.1 r1.2.1 good true
    let r3 := reconfigure r2.1 r2.2.1 off true
    r1.1.userAuthenticated = some 0 ∧
    r2.1.userAuthenticated = some 1 ∧
    r2.1.userAuthenticated ≠ r1.1.userAuthenticated ∧
    r3.1.userAuthenticated = none ∧
    "openid-connect" ∈ r3.2.1.registered ∧
    handleCbModel xorBlockCipher (List.range 32) r3.1.userAuthenticated
      [(cookieName, "deadbeef:cafe")] (fun v => Except.ok ⟨"tok"⟩) (fun a => Except.ok [])
      ⟨none, none, none, none⟩ = ([ResAction.redirect "/login?externalAuthError=true"], none) := by
  decide

/-- C8 (amended): every successful reconfiguration re-captures a
fresh acceptance handle (the guard meant to keep it stable is dead
because the handle is cleared first), and a reconfiguration that
returns early or fails leaves no acceptor, so a callback arriving
after it is routed to the error redirect. -/
theorem oidc_C8_acceptor_refreshed_every_time
    (st : Store) (h : HostState) (settings : ReconfSettings) (d : Bool) :
    (strOptTruthy settings.discoverUrl = true → strOptTruthy settings.clientId = true →
      d = true →
      (reconfigure st h settings d).1.userAuthenticated = some h.nextHandle ∧
      (reconfigure st h settings d).2.1.nextHandle = h.nextHandle + 1) ∧
    ((strOptTruthy settings.discoverUrl = false ∨ strOptTruthy settings.clientId = false ∨
        d = false) →
      (reconfigure st h settings d).1.userAuthenticated = none) := by
  constructor
  · intro hd hc hdk
    subst hdk
    unfold reconfigure
    rw [hd, hc]
    by_cases hcl : st.client.isSome
    · simp [hcl, hostRegister, hostUnregister]
    · simp [hcl, hostRegister, hostUnregister]
  · intro hfail
    unfold reconfigure
    rcases hfail with hf | hf | hf
    · rw [hf]
      by_cases hcl : st.client.isSome
      · simp [hcl]
      · simp [hcl]
    · rw [hf]
      by_cases hd : strOptTruthy settings.discoverUrl
      · by_cases hcl : st.client.isSome
        · simp [hcl, hd]
        · simp [hcl, hd]
      · by_cases hcl : st.client.isSome
        · simp [hcl, hd]
        · simp [hcl, hd]
    · subst hf
      by_cases hd : strOptTruthy settings.discoverUrl
      · by_cases hc : strOptTruthy settings.clientId
        · by_cases hcl : st.client.isSome
          · simp [hcl, hd, hc]
          · simp [hcl, hd, hc]
        · by_cases hcl : st.client.isSome
          · simp [hcl, hd, hc]
          · simp [hcl, hd, hc]
      · by_cases hcl : st.client.isSome
        · simp [hcl, hd]
        · simp [hcl, hd]

/-- Witness for the amended C8 at concrete states. -/
theorem oidc_C8_acceptor_refreshed_every_time_witness :
    (reconfigure ⟨none, none, "https://t.example/cb"⟩ ⟨[], 5⟩
        ⟨some "https://idp.example/.well-known", some "abc", none⟩ true).1.userAuthenticated =
      some 5 ∧
    (reconfigure ⟨none, none, "https://t.example/cb"⟩ ⟨[], 5⟩
        ⟨none, some "abc", none⟩ true).1.userAuthenticated = none := by
  constructor
  · exact ((oidc_C8_acceptor_refreshed_every_time ⟨none, none, "https://t.example/cb"⟩ ⟨[], 5⟩
      ⟨some "https://idp.example/.well-known", some "abc", none⟩ true).1
      (by decide) (by decide) rfl).1
  · exact (oidc_C8_acceptor_refreshed_every_time ⟨none, none, "https://t.example/cb"⟩ ⟨[], 5⟩
      ⟨none, some "abc", none⟩ true).2 (Or.inl (by decide))

/-- C9: with a discover URL and client id but no client secret, the
built client options use the public-client token endpoint auth
method, the store receives exactly those options, and the
authorization redirect carries the PKCE parameters
code_challenge_method=S256 and response_mode=form_post with scope
"openid email profile". -/
theorem oidc_C9_public_client_and_pkce_url
    (settings : ReconfSettings) (st : Store) (h : HostState)
    (hd : strOptTruthy settings.discoverUrl = true)
    (hc : strOptTruthy settings.clientId = true)
    (hnosecret : settings.clientSecret = none) :
    (buildClientOptions (settings.clientId.getD "") settings.clientSecret
      st.redirectUrl).token_endpoint_auth_method = some "none" ∧
    (buildClientOptions (settings.clientId.getD "") settings.clientSecret
      st.redirectUrl).client_secret = none ∧
    (reconfigure st h settings true).1.client =
      some (buildClientOptions (settings.clientId.getD "") settings.clientSecret
        st.redirectUrl) ∧
    (∀ cv cc ecv endpoint webserverUrl,
      (onAuthRequestModel ⟨Except.ok cv, fun v => Except.ok cc,
          fun p => Except.ok (authorizationUrlModel endpoint p),
          fun v => Except.ok ecv, true, true⟩ webserverUrl).1 =
        [ResAction.setCookie cookieName ecv (webserverUrl.startsWith "https://")
           true "none" 600000,
         ResAction.redirect (authorizationUrlModel endpoint
           ⟨"openid email profile", "form_post", cc, "S256"⟩)]) ∧
    containsSeg ("response_mode=form_post").data
      (authorizationUrlModel "https://idp.example/auth"
        ⟨"openid email profile", "form_post", "testchallenge", "S256"⟩).data = true ∧
    containsSeg ("code_challenge_method=S256").data
      (authorizationUrlModel "https://idp.example/auth"
        ⟨"openid email profile", "form_post", "testchallenge", "S256"⟩).data = true := by
  refine ⟨?_, ?_, ?_, ?_, by decide, by decide⟩
  · simp [buildClientOptions, hnosecret, strOptTruthy]
  · simp [buildClientOptions, hnosecret, strOptTruthy]
  · unfold reconfigure
    rw [hd, hc]
    by_cases hcl : st.client.isSome
    · simp [hcl, hostRegister]
    · simp [hcl, hostRegister]
  · intro cv cc ecv endpoint webserverUrl
    rfl

/-- Witness for C9 at the concrete scenario settings. -/
theorem oidc_C9_public_client_and_pkce_url_witness :
    (buildClientOptions "abc" none "https://t.example/cb").token_endpoint_auth_method =
      some "none" ∧
    (reconfigure ⟨none, none, "https://t.example/cb"⟩ ⟨[], 0⟩
        ⟨some "https://idp.example/.well-known", some "abc", none⟩ true).1.client =
      some (buildClientOptions "abc" none "https://t.example/cb") ∧
    containsSeg ("response_mode=form_post").data
      (authorizationUrlModel "https://idp.example/auth"
        ⟨"openid email profile", "form_post", "testchallenge", "S256"⟩).data = true := by
  have h := oidc_C9_public_client_and_pkce_url
    ⟨some "https://idp.example/.well-known", some "abc", none⟩
    ⟨none, none, "https://t.example/cb"⟩ ⟨[], 0⟩ (by decide) (by decide) rfl
  exact ⟨h.1, h.2.2.1, h.2.2.2.2.1⟩

end Oidc
